import Mathlib

/-!
Verification of the hierarchical master/worker synchronization protocol of the
NNLO repository (`mpi_tools/MPIProcess.py`, entry point `OptimizeCNN.py`).

Weights are modelled as lists of rational arrays; the external optimization
algorithm's `apply_update` is an opaque function field; MPI sends are recorded
in an explicit message trace, MPI receives are supplied as inputs; a Python
exception is an `Except` error value.
-/

namespace NNLO

/-- A model's weights: one numeric array per layer (numpy arrays as lists). -/
abbrev Weights := List (List ℚ)

/-- `Utils.weights_from_shapes`: zero-valued arrays of the given shapes
(each shape abstracted to its flat length). -/
def weights_from_shapes (shapes : List Nat) : Weights :=
  shapes.map (fun n => List.replicate n (0 : ℚ))

/-- Element-wise sum of two same-shaped weight lists
(`recv_arrays` with `add_to_existing=True`: `obj[i] += tmp[i]`). -/
def addWeights (a b : Weights) : Weights :=
  List.zipWith (fun x y => List.zipWith (fun p q => p + q) x y) a b

/-- Python exceptions that the modelled code can raise. -/
inductive PyError
  | zeroDivision
  | valueError
  | indexError
deriving DecidableEq, Repr

/-- The fields of the external `Algo` object that `MPIProcess.py` reads or
writes: the mutable `staleness` attribute, the `send_before_apply` flag,
`validate_every`, and the opaque `apply_update` arithmetic. -/
structure Algo where
  staleness : Int
  send_before_apply : Bool
  validate_every : Nat
  applyUpdate : Weights → Weights → Weights

/-- State of an `MPIMaster` process (the fields its methods read and write).
`metrics_count` stands for `len(self.model.metrics)` of the external model. -/
structure MPIMaster where
  has_parent : Bool
  time_step : Int
  num_sync_workers : Int
  running_workers : Int
  waiting_workers_list : List Nat
  weights_shapes : List Nat
  weights : Weights
  update : Weights
  best_val_loss : Option ℚ
  metrics_count : Nat
  algo : Algo

/-- A message sent by the master: to a child over `child_comm`, or to its
parent over `parent_comm`. -/
inductive Msg
  | boolToChild (dest : Nat) (b : Bool)
  | timeToChild (dest : Nat) (t : Int)
  | weightsToChild (dest : Nat) (w : Weights)
  | beginUpdateToParent
  | timeToParent (t : Int)
  | updateToParent (u : Weights)
deriving DecidableEq, Repr

/-- The parent's side of `do_send_sequence`, seen from this master: the
accept/reject decision it returns, and the time step and weights it then
serves back in `sync_with_master`. -/
structure ParentEnv where
  decision : Bool
  newTime : Int
  newWeights : Weights

/-- `MPIMaster.is_synchronous`. -/
def is_synchronous (m : MPIMaster) : Bool :=
  1 < m.num_sync_workers

/-- `MPIMaster.accept_update`:
`(not self.is_synchronous()) or self.algo.staleness == 0`. -/
def accept_update (m : MPIMaster) : Bool :=
  (!(is_synchronous m)) || (m.algo.staleness == 0)

/-- `MPIMaster.decide_whether_to_sync`:
`len(self.waiting_workers_list) >= self.num_sync_workers`. -/
def decide_whether_to_sync (m : MPIMaster) : Bool :=
  m.num_sync_workers ≤ (m.waiting_workers_list.length : Int)

/-- First line of `do_update_sequence`:
`self.algo.staleness = self.time_step - <child's declared time step>`. -/
def set_staleness (m : MPIMaster) (childTime : Int) : MPIMaster :=
  { m with algo := { m.algo with staleness := m.time_step - childTime } }

/-- `MPIMaster.sync_child`: send the child the current time step,
then the current weights. -/
def sync_child (m : MPIMaster) (child : Nat) : List Msg :=
  [Msg.timeToChild child m.time_step, Msg.weightsToChild child m.weights]

/-- `MPIMaster.sync_children`: pop each waiting worker (from the tail)
and `sync_child` it. -/
def sync_children (m : MPIMaster) : MPIMaster × List Msg :=
  ({ m with waiting_workers_list := [] },
   (m.waiting_workers_list.reverse.map (sync_child m)).flatten)

/-- `MPIMaster.sync_parent`: with a parent, run `do_send_sequence`
(send `begin_update`, send own time step, await the decision, send the
update only if accepted, then receive and adopt the parent's time step and
weights); without a parent, increment the time step. -/
def sync_parent (m : MPIMaster) (env : ParentEnv) : MPIMaster × List Msg :=
  if m.has_parent then
    ({ m with time_step := env.newTime, weights := env.newWeights },
     [Msg.beginUpdateToParent, Msg.timeToParent m.time_step] ++
       (if env.decision then [Msg.updateToParent m.update] else []))
  else
    ({ m with time_step := m.time_step + 1 }, [])

/-- `MPIMaster.apply_update`:
`self.weights = self.algo.apply_update(self.weights, self.update)`. -/
def apply_update (m : MPIMaster) : MPIMaster :=
  { m with weights := m.algo.applyUpdate m.weights m.update }

/-- The round performed inside `do_update_sequence` once
`decide_whether_to_sync` holds (lines 421-429): the `send_before_apply`
flag orders `sync_parent`/`sync_children` against `apply_update`, and the
pending update buffer is reset to zero arrays afterwards. -/
def round_step (m : MPIMaster) (env : ParentEnv) : MPIMaster × List Msg :=
  let r :=
    if m.algo.send_before_apply then
      let p := sync_parent m env
      let c := sync_children p.1
      (apply_update c.1, p.2 ++ c.2)
    else
      let a := apply_update m
      let p := sync_parent a env
      let c := sync_children p.1
      (c.1, p.2 ++ c.2)
  ({ r.1 with update := weights_from_shapes r.1.weights_shapes }, r.2)

/-- The `val_metrics` argument of `save_model_if_best`: a numpy vector
(supports `__getitem__`) or a bare scalar. -/
inductive ValMetrics
  | scalar (x : ℚ)
  | vec (xs : List ℚ)

/-- The primary metric extracted by `save_model_if_best`:
`val_metrics[0]` for an indexable value (failing on an empty vector),
the value itself for a scalar. -/
def primary_metric : ValMetrics → Option ℚ
  | .scalar x => some x
  | .vec xs => xs.head?

/-- `MPIMaster.save_model_if_best`: save (and record the new best) exactly
when no best is recorded yet or the primary metric strictly improves.
The returned flag reports whether `model.save` was invoked. -/
def save_model_if_best (m : MPIMaster) (v : ValMetrics) :
    Except PyError (MPIMaster × Bool) :=
  match primary_metric v with
  | none => .error .indexError
  | some val_loss =>
    match m.best_val_loss with
    | none => .ok ({ m with best_val_loss := some val_loss }, true)
    | some best =>
      if val_loss < best then
        .ok ({ m with best_val_loss := some val_loss }, true)
      else
        .ok (m, false)

/-- `MPIMaster.validate`: a master with a parent returns immediately;
otherwise the per-batch metric vectors (from the external model on the
external data source) are summed, averaged over the number of batches, and
handed to `save_model_if_best` when `save_if_best` is set. -/
def validate (m : MPIMaster) (batches : List (List ℚ)) (save_if_best : Bool) :
    Except PyError (MPIMaster × Bool) :=
  if m.has_parent then .ok (m, false)
  else
    let n : ℚ := (batches.length : ℚ)
    let sums := batches.foldl (fun acc b => List.zipWith (fun p q => p + q) acc b)
      (List.replicate m.metrics_count (0 : ℚ))
    let val_metrics := sums.map (fun x => x / n)
    if save_if_best then save_model_if_best m (ValMetrics.vec val_metrics)
    else .ok (m, false)

/-- Lines 430-431 of `do_update_sequence`:
`if self.time_step % self.algo.validate_every == 0 and self.time_step > 0:
self.validate()`.  Python evaluates the `%` first, so `validate_every == 0`
raises `ZeroDivisionError`; Python's `%` on ints is floored modulus
(`Int.fmod`). -/
def validate_phase (m : MPIMaster) (valBatches : List (List ℚ))
    (tr : List Msg) : Except PyError (MPIMaster × List Msg) :=
  if m.algo.validate_every = 0 then .error .zeroDivision
  else if Int.fmod m.time_step (m.algo.validate_every : Int) = 0 ∧ 0 < m.time_step then
    match validate m valBatches true with
    | .error e => .error e
    | .ok p => .ok (p.1, tr)
  else .ok (m, tr)

/-- Line 417-419 of `do_update_sequence`: receive the accepted child's
update (accumulating element-wise in synchronous mode, overwriting in
asynchronous mode) and append the child to `waiting_workers_list`. -/
def merge_update (m : MPIMaster) (source : Nat) (childUpdate : Weights) :
    MPIMaster :=
  { m with
    update := if is_synchronous m then addWeights m.update childUpdate else childUpdate,
    waiting_workers_list := m.waiting_workers_list ++ [source] }

/-- `MPIMaster.do_update_sequence`, for a `begin_update` request from child
`source`: set the staleness from the child's declared time step, send the
accept/reject decision, then either run the accepted path (merge, possible
round, possible validation) or re-serve the child via `sync_child`.
Receives are supplied as arguments: the child's declared time step and
update payload, the parent's replies, and the validation batch metrics. -/
def do_update_sequence (m : MPIMaster) (source : Nat) (childTime : Int)
    (childUpdate : Weights) (env : ParentEnv) (valBatches : List (List ℚ)) :
    Except PyError (MPIMaster × List Msg) :=
  let m1 := set_staleness m childTime
  if accept_update m1 then
    let m2 := merge_update m1 source childUpdate
    let r := if decide_whether_to_sync m2 then round_step m2 env else (m2, [])
    validate_phase r.1 valBatches (Msg.boolToChild source true :: r.2)
  else
    .ok (m1, Msg.boolToChild source false :: sync_child m1 source)

/-- The decision `do_update_sequence` computes for a child that declares
time step `childTime`: `accept_update` evaluated after the staleness
assignment. -/
def update_decision (m : MPIMaster) (childTime : Int) : Bool :=
  accept_update (set_staleness m childTime)

/-- `MPI.ANY_SOURCE`: an implementation-defined negative constant. -/
def MPI_ANY_SOURCE : Int := -1

/-- `MPIProcess.tag_lookup`, in source order: message names to MPI tags. -/
def tag_lookup : List (String × Int) :=
  [("any", MPI_ANY_SOURCE),
   ("train", 0),
   ("exit", 1),
   ("begin_weights", 2),
   ("begin_update", 3),
   ("time", 4),
   ("bool", 5),
   ("model_arch", 10),
   ("algo", 11),
   ("weights_shapes", 12),
   ("weights", 13),
   ("update", 13)]

/-- Forward lookup `tag_lookup[name]` (a Python dict with unique keys). -/
def lookup_mpi_tag (name : String) : Option Int :=
  (tag_lookup.find? (fun p => p.1 == name)).map (fun p => p.2)

/-- `inv_tag_lookup[t]`: the dict comprehension
`{value: key for key, value in tag_lookup.iteritems()}` keeps exactly one
name per tag value (a later entry for the same value overwrites an
earlier one). -/
def inv_tag_lookup (t : Int) : Option String :=
  tag_lookup.foldl (fun acc p => if p.2 == t then some p.1 else acc) none

/-- One incoming message to the master's serving loop: the wire tag plus
the data of the receives that the handler would then perform. -/
structure InEvent where
  tagNum : Int
  source : Nat
  childTime : Int
  childUpdate : Weights
  env : ParentEnv
  valBatches : List (List ℚ)

/-- `MPIMaster.process_message`: reverse-look up the wire tag and dispatch;
`begin_update` runs `do_update_sequence`, `exit` decrements both
`running_workers` and `num_sync_workers`, anything else raises
`ValueError`. -/
def process_message (m : MPIMaster) (e : InEvent) :
    Except PyError (MPIMaster × List Msg) :=
  match inv_tag_lookup e.tagNum with
  | some "begin_update" =>
      do_update_sequence m e.source e.childTime e.childUpdate e.env e.valBatches
  | some "exit" =>
      .ok ({ m with
              running_workers := m.running_workers - 1,
              num_sync_workers := m.num_sync_workers - 1 }, [])
  | _ => .error .valueError

/-- The serving loop of `MPIMaster.train`
(`while self.running_workers > 0: recv; process_message`), driven by the
list of messages that arrive; returns the final state and the messages the
loop never consumed. -/
def serve (m : MPIMaster) : List InEvent → Except PyError (MPIMaster × List InEvent)
  | [] => .ok (m, [])
  | e :: es =>
    if 0 < m.running_workers then
      match process_message m e with
      | .error err => .error err
      | .ok p => serve p.1 es
    else .ok (m, e :: es)

/-- State of an `MPIWorker` process. -/
structure MPIWorker where
  time_step : Int
  weights : Weights
  update : Weights

/-- A message sent by the worker to its master. -/
inductive WMsg
  | beginUpdate
  | timeStep (t : Int)
  | updateArrays (u : Weights)
deriving DecidableEq, Repr

/-- The master's replies consumed during the worker's `do_send_sequence`:
the permission decision, then the time step and weights the master serves
back. -/
structure MasterReply where
  decision : Bool
  newTime : Int
  newWeights : Weights

/-- `MPIProcess.send_update` with `check_permission=True`
(via `send_arrays`): send `begin_update` and the current time step, await
the decision, and send the update arrays only if accepted. -/
def send_update (w : MPIWorker) (decision : Bool) : List WMsg :=
  [WMsg.beginUpdate, WMsg.timeStep w.time_step] ++
    (if decision then [WMsg.updateArrays w.update] else [])

/-- `MPIProcess.sync_with_master`: adopt the time step and weights received
from the master. -/
def sync_with_master (w : MPIWorker) (r : MasterReply) : MPIWorker :=
  { w with time_step := r.newTime, weights := r.newWeights }

/-- `MPIProcess.do_send_sequence`: `send_update(check_permission=True)`
followed unconditionally by `sync_with_master`. -/
def do_send_sequence (w : MPIWorker) (r : MasterReply) : MPIWorker × List WMsg :=
  (sync_with_master w r, send_update w r.decision)

/-- `MPIWorker.compute_update`:
`self.update = self.algo.compute_update(self.weights, self.model.get_weights())`,
with the algorithm's arithmetic and the model's post-training weights
external. -/
def compute_update (w : MPIWorker)
    (algoComputeUpdate : Weights → Weights → Weights)
    (modelWeights : Weights) : MPIWorker :=
  { w with update := algoComputeUpdate w.weights modelWeights }

/-- `validate_every = data.count_data()/args.batch` in `OptimizeCNN.py`
(a Python 3 file, so `/` is true division producing a float). -/
def validate_every_main (count batchSize : Nat) : ℚ :=
  (count : ℚ) / (batchSize : ℚ)

/-! ## Frame lemmas -/

/-- Two master states that agree on every field except possibly
`best_val_loss`. -/
def EqExceptBest (a b : MPIMaster) : Prop :=
  a.has_parent = b.has_parent ∧ a.time_step = b.time_step ∧
  a.num_sync_workers = b.num_sync_workers ∧
  a.running_workers = b.running_workers ∧
  a.waiting_workers_list = b.waiting_workers_list ∧
  a.weights_shapes = b.weights_shapes ∧ a.weights = b.weights ∧
  a.update = b.update ∧ a.metrics_count = b.metrics_count ∧ a.algo = b.algo

lemma eqExceptBest_refl (a : MPIMaster) : EqExceptBest a a :=
  ⟨rfl, rfl, rfl, rfl, rfl, rfl, rfl, rfl, rfl, rfl⟩

lemma save_model_if_best_frame {m : MPIMaster} {v : ValMetrics}
    {p : MPIMaster × Bool} (h : save_model_if_best m v = .ok p) :
    EqExceptBest p.1 m := by
  unfold save_model_if_best at h
  split at h
  · exact absurd h (by simp)
  · split at h
    · simp only [Except.ok.injEq] at h
      subst h
      exact eqExceptBest_refl _
    · split at h <;> simp only [Except.ok.injEq] at h <;> subst h <;>
        exact eqExceptBest_refl _

lemma validate_frame {m : MPIMaster} {vb : List (List ℚ)} {s : Bool}
    {p : MPIMaster × Bool} (h : validate m vb s = .ok p) :
    EqExceptBest p.1 m := by
  unfold validate at h
  split at h
  · simp only [Except.ok.injEq] at h
    subst h
    exact eqExceptBest_refl _
  · split at h
    · exact save_model_if_best_frame h
    · simp only [Except.ok.injEq] at h
      subst h
      exact eqExceptBest_refl _

lemma validate_phase_frame {m : MPIMaster} {vb : List (List ℚ)}
    {tr : List Msg} {m' : MPIMaster} {tr' : List Msg}
    (h : validate_phase m vb tr = .ok (m', tr')) :
    tr' = tr ∧ EqExceptBest m' m := by
  unfold validate_phase at h
  split at h
  · exact absurd h (by simp)
  · split at h
    · split at h
      · exact absurd h (by simp)
      · next p heq =>
        simp only [Except.ok.injEq, Prod.mk.injEq] at h
        obtain ⟨h1, h2⟩ := h
        subst h1; subst h2
        exact ⟨rfl, validate_frame heq⟩
    · simp only [Except.ok.injEq, Prod.mk.injEq] at h
      obtain ⟨h1, h2⟩ := h
      subst h1; subst h2
      exact ⟨rfl, eqExceptBest_refl _⟩

lemma round_step_frame (m : MPIMaster) (env : ParentEnv) :
    (round_step m env).1.algo = m.algo ∧
    (round_step m env).1.best_val_loss = m.best_val_loss ∧
    (round_step m env).1.weights_shapes = m.weights_shapes ∧
    (round_step m env).1.num_sync_workers = m.num_sync_workers ∧
    (round_step m env).1.running_workers = m.running_workers ∧
    (round_step m env).1.has_parent = m.has_parent ∧
    (round_step m env).1.metrics_count = m.metrics_count := by
  unfold round_step sync_parent sync_children apply_update
  by_cases hs : m.algo.send_before_apply = true <;>
    by_cases hp : m.has_parent = true <;> simp [hs, hp]

lemma round_step_waiting (m : MPIMaster) (env : ParentEnv) :
    (round_step m env).1.waiting_workers_list = [] := by
  unfold round_step sync_parent sync_children apply_update
  by_cases hs : m.algo.send_before_apply = true <;>
    by_cases hp : m.has_parent = true <;> simp [hs, hp]

lemma round_step_update (m : MPIMaster) (env : ParentEnv) :
    (round_step m env).1.update = weights_from_shapes m.weights_shapes := by
  unfold round_step sync_parent sync_children apply_update
  by_cases hs : m.algo.send_before_apply = true <;>
    by_cases hp : m.has_parent = true <;> simp [hs, hp]

lemma round_step_time (m : MPIMaster) (env : ParentEnv) :
    (round_step m env).1.time_step =
      (if m.has_parent then env.newTime else m.time_step + 1) := by
  unfold round_step sync_parent sync_children apply_update
  by_cases hs : m.algo.send_before_apply = true <;>
    by_cases hp : m.has_parent = true <;> simp [hs, hp]

lemma round_step_weights (m : MPIMaster) (env : ParentEnv) :
    (round_step m env).1.weights =
      (if m.algo.send_before_apply then
        m.algo.applyUpdate (if m.has_parent then env.newWeights else m.weights)
          m.update
       else (if m.has_parent then env.newWeights
         else m.algo.applyUpdate m.weights m.update)) := by
  unfold round_step sync_parent sync_children apply_update
  by_cases hs : m.algo.send_before_apply = true <;>
    by_cases hp : m.has_parent = true <;> simp [hs, hp]

lemma round_step_trace (m : MPIMaster) (env : ParentEnv) :
    (round_step m env).2 =
      (if m.has_parent then
        [Msg.beginUpdateToParent, Msg.timeToParent m.time_step] ++
          (if env.decision then [Msg.updateToParent m.update] else [])
       else []) ++
      (m.waiting_workers_list.reverse.map (fun c =>
        [Msg.timeToChild c (if m.has_parent then env.newTime else m.time_step + 1),
         Msg.weightsToChild c (if m.has_parent then env.newWeights
           else if m.algo.send_before_apply then m.weights
           else m.algo.applyUpdate m.weights m.update)])).flatten := by
  unfold round_step sync_parent sync_children apply_update sync_child
  by_cases hs : m.algo.send_before_apply = true <;>
    by_cases hp : m.has_parent = true <;> simp [hs, hp]

lemma decide_sync_append {m : MPIMaster} {t : Int} {source : Nat}
    {u : Weights}
    (hthr : m.num_sync_workers ≤ (m.waiting_workers_list.length : Int) + 1) :
    decide_whether_to_sync (merge_update (set_staleness m t) source u) = true := by
  simp only [decide_whether_to_sync, merge_update, set_staleness,
    List.length_append, List.length_cons, List.length_nil,
    decide_eq_true_eq]
  push_cast
  omega

/-! ## Concrete states for witnesses and counterexamples -/

/-- A concrete algorithm object whose update arithmetic is element-wise
addition. -/
def algoA : Algo :=
  { staleness := 0, send_before_apply := false, validate_every := 5,
    applyUpdate := addWeights }

/-- A concrete root master with one pending waiting worker slot (a model
with a single zero-length layer, so concrete runs need no rational
arithmetic). -/
def masterA : MPIMaster :=
  { has_parent := false, time_step := 0, num_sync_workers := 1,
    running_workers := 2, waiting_workers_list := [],
    weights_shapes := [0], weights := [[]], update := [[]],
    best_val_loss := some 5, metrics_count := 1, algo := algoA }

/-- A concrete synchronous master (threshold 2). -/
def masterB : MPIMaster :=
  { masterA with num_sync_workers := 2, time_step := 3 }

/-- A concrete worker state. -/
def workerA : MPIWorker :=
  { time_step := 0, weights := [[1]], update := [[9]] }

/-- A concrete rejecting master reply. -/
def replyReject : MasterReply :=
  { decision := false, newTime := 7, newWeights := [[5]] }

/-- A concrete parent environment. -/
def envA : ParentEnv :=
  { decision := true, newTime := 9, newWeights := [[7]] }

/-- The pending update a round applies after merging child `u`:
the element-wise accumulation in synchronous mode, `u` alone otherwise. -/
def pendingOf (m : MPIMaster) (u : Weights) : Weights :=
  if is_synchronous m then addWeights m.update u else u

/-! ## Claims -/

/-- Claim C1: the acceptance decision for a child's update request is
unconditionally `true` when `num_sync_workers` is 1, and when the threshold
exceeds 1 it is `true` exactly when the computed staleness
`time_step - childTime` is 0, i.e. exactly when the child's declared time
step equals the master's current `time_step`; the decision sent back by
`do_update_sequence` is this very value. -/
theorem claim_C1 (m : MPIMaster) (t : Int) :
    (m.num_sync_workers = 1 → update_decision m t = true) ∧
    (1 < m.num_sync_workers →
      ((update_decision m t = true ↔ m.time_step - t = 0) ∧
       (update_decision m t = true ↔ t = m.time_step))) ∧
    (∀ source u env vb m' tr,
      do_update_sequence m source t u env vb = .ok (m', tr) →
      tr.head? = some (Msg.boolToChild source (update_decision m t))) := by
  refine ⟨?_, ?_, ?_⟩
  · intro h
    simp [update_decision, accept_update, set_staleness, is_synchronous, h]
  · intro h
    constructor
    · simp [update_decision, accept_update, set_staleness, is_synchronous, h]
    · constructor
      · intro hd
        have := (by
          simpa [update_decision, accept_update, set_staleness,
            is_synchronous, h] using hd : m.time_step - t = 0)
        omega
      · intro ht
        simp [update_decision, accept_update, set_staleness, is_synchronous,
          h, ht]
  · intro source u env vb m' tr hr
    simp only [do_update_sequence] at hr
    split at hr
    · next hacc =>
        obtain ⟨htr, -⟩ := validate_phase_frame hr
        subst htr
        simp [update_decision, hacc]
    · next hacc =>
        rw [Bool.not_eq_true] at hacc
        simp only [Except.ok.injEq, Prod.mk.injEq] at hr
        obtain ⟨-, h2⟩ := hr
        subst h2
        simp [update_decision, hacc]

/-- Claim C1 witness: with threshold 1 the decision at declared time 5 is
accepted; with threshold 2 the decision is accepted exactly when the
declared time step equals the master's time step 3. -/
theorem claim_C1_witness :
    update_decision masterA 5 = true ∧
    (update_decision masterB 3 = true ↔ masterB.time_step - 3 = 0) :=
  ⟨(claim_C1 masterA 5).1 rfl, ((claim_C1 masterB 3).2.1 (by decide)).1⟩

/-- Claim C9: `tag_lookup` sends both the distinct message names
`"weights"` and `"update"` to the same wire tag 13, so it is not injective;
the inverse table keeps exactly one name for tag 13, and a weights message
and an update message carry the same wire tag. -/
theorem claim_C9 :
    lookup_mpi_tag "weights" = some 13 ∧
    lookup_mpi_tag "update" = some 13 ∧
    ("weights" : String) ≠ "update" ∧
    lookup_mpi_tag "weights" = lookup_mpi_tag "update" ∧
    inv_tag_lookup 13 = some "update" :=
  ⟨rfl, rfl, by decide, rfl, rfl⟩

/-- Claim C3 counterexample: the claim says a worker overwrites its local
weights only on acceptance and that after a rejection its compute proceeds
from its own unsynchronized local weights; but `do_send_sequence` calls
`sync_with_master` unconditionally, so on a rejected request
(`decision = false`) the worker still overwrites its weights with the ones
re-served by the master. -/
theorem claim_C3_cex :
    replyReject.decision = false ∧
    workerA.weights = [[1]] ∧
    (do_send_sequence workerA replyReject).1.weights = [[5]] ∧
    (do_send_sequence workerA replyReject).1.weights ≠ workerA.weights :=
  ⟨rfl, rfl, rfl, by decide⟩

/-- Claim C3 (amended): in the worker's per-batch exchange the worker
always receives the time step and weights from the master after its
permission-checked send and overwrites its local time step and weights —
on rejection the master has re-served its current state, so the retry on
the next batch proceeds from the re-received master weights; only the
update payload is withheld on rejection, and the pending update buffer is
not discarded. -/
theorem claim_C3_amended (w : MPIWorker) (r : MasterReply) :
    (do_send_sequence w r).1.weights = r.newWeights ∧
    (do_send_sequence w r).1.time_step = r.newTime ∧
    (do_send_sequence w r).1.update = w.update ∧
    (r.decision = false →
      (do_send_sequence w r).2 = [WMsg.beginUpdate, WMsg.timeStep w.time_step]) ∧
    (r.decision = true →
      (do_send_sequence w r).2 =
        [WMsg.beginUpdate, WMsg.timeStep w.time_step,
         WMsg.updateArrays w.update]) := by
  refine ⟨rfl, rfl, rfl, ?_, ?_⟩ <;> intro h <;>
    simp [do_send_sequence, send_update, h]

/-- Claim C3 amended witness: on the concrete rejected exchange no update
arrays are sent and the worker adopts the re-served weights. -/
theorem claim_C3_amended_witness :
    (do_send_sequence workerA replyReject).2 =
      [WMsg.beginUpdate, WMsg.timeStep workerA.time_step] ∧
    (do_send_sequence workerA replyReject).1.weights = replyReject.newWeights :=
  ⟨(claim_C3_amended workerA replyReject).2.2.2.1 rfl,
   (claim_C3_amended workerA replyReject).1⟩

/-- Claim C7: `save_model_if_best` saves and updates the best-metric record
iff no best value is recorded yet or the new primary metric (first element
of an indexable `val_metrics`, or the scalar itself) strictly improves it;
an identical metric value does not re-trigger a save, and `best_val_loss`
never increases across calls. -/
theorem claim_C7 (m : MPIMaster) (v : ValMetrics) (val : ℚ)
    (h : primary_metric v = some val) :
    ∃ m' saved, save_model_if_best m v = .ok (m', saved) ∧
      (saved = true ↔
        (m.best_val_loss = none ∨ ∃ b, m.best_val_loss = some b ∧ val < b)) ∧
      (saved = true → m'.best_val_loss = some val) ∧
      (saved = false → m' = m) ∧
      (∀ b, m.best_val_loss = some b → val = b → saved = false) ∧
      (∀ b b', m.best_val_loss = some b → m'.best_val_loss = some b' →
        b' ≤ b) := by
  cases hb : m.best_val_loss with
  | none =>
    refine ⟨{ m with best_val_loss := some val }, true, ?_, by simp,
      fun _ => rfl, by simp, ?_, ?_⟩
    · simp [save_model_if_best, h, hb]
    · intro b hbb
      exact absurd hbb (by simp)
    · intro b b' hbb
      exact absurd hbb (by simp)
  | some best =>
    by_cases hlt : val < best
    · refine ⟨{ m with best_val_loss := some val }, true, ?_, by simp [hlt],
        fun _ => rfl, by simp, ?_, ?_⟩
      · simp [save_model_if_best, h, hb, hlt]
      · intro b hbb hval
        simp only [Option.some.injEq] at hbb
        subst hbb
        exact absurd hlt (by rw [hval]; exact lt_irrefl _)
      · intro b b' hbb hb'
        simp only [Option.some.injEq] at hbb hb'
        subst hbb
        subst hb'
        exact le_of_lt hlt
    · refine ⟨m, false, ?_, by simp [hlt], by simp, fun _ => rfl, ?_, ?_⟩
      · simp [save_model_if_best, h, hb, hlt]
      · intro b hbb hval
        rfl
      · intro b b' hbb hb'
        rw [hb] at hb'
        simp only [Option.some.injEq] at hbb hb'
        subst hbb
        subst hb'
        exact le_refl best

/-- Claim C7 witness: on a master whose recorded best is 5, a scalar metric
3 triggers a save (and the record becomes 3). -/
theorem claim_C7_witness :
    ∃ m' saved, save_model_if_best masterA (ValMetrics.scalar 3) = .ok (m', saved) ∧
      (saved = true ↔
        (masterA.best_val_loss = none ∨
          ∃ b, masterA.best_val_loss = some b ∧ (3:ℚ) < b)) ∧
      (saved = true → m'.best_val_loss = some 3) ∧
      (saved = false → m' = masterA) ∧
      (∀ b, masterA.best_val_loss = some b → (3:ℚ) = b → saved = false) ∧
      (∀ b b', masterA.best_val_loss = some b → m'.best_val_loss = some b' →
        b' ≤ b) :=
  claim_C7 masterA (ValMetrics.scalar 3) 3 rfl

/-- Claim C4: on a rejected update request `do_update_sequence` sends the
child the decision, then the master's current time step, then its current
weights, and changes nothing but the transient `algo.staleness` field: in
particular `weights`, the pending `update` buffer, `waiting_workers_list`,
`time_step` and `num_sync_workers` are all unchanged. -/
theorem claim_C4 (m : MPIMaster) (source : Nat) (t : Int) (u : Weights)
    (env : ParentEnv) (vb : List (List ℚ))
    (hrej : update_decision m t = false) :
    do_update_sequence m source t u env vb =
      .ok (set_staleness m t,
        [Msg.boolToChild source false, Msg.timeToChild source m.time_step,
         Msg.weightsToChild source m.weights]) ∧
    (set_staleness m t).weights = m.weights ∧
    (set_staleness m t).update = m.update ∧
    (set_staleness m t).waiting_workers_list = m.waiting_workers_list ∧
    (set_staleness m t).time_step = m.time_step ∧
    (set_staleness m t).num_sync_workers = m.num_sync_workers := by
  refine ⟨?_, rfl, rfl, rfl, rfl, rfl⟩
  have hacc : accept_update (set_staleness m t) = false := hrej
  simp only [do_update_sequence]
  rw [if_neg (by simp [hacc])]
  rfl

/-- Claim C4 witness: the synchronous master at time 3 rejects a request
declaring time 0 and merely re-serves its state. -/
theorem claim_C4_witness :
    do_update_sequence masterB 1 0 [[1]] envA [] =
      .ok (set_staleness masterB 0,
        [Msg.boolToChild 1 false, Msg.timeToChild 1 masterB.time_step,
         Msg.weightsToChild 1 masterB.weights]) :=
  (claim_C4 masterB 1 0 [[1]] envA [] (by decide)).1

/-- Claim C2: when an accepted child is appended and the waiting list
reaches the (current) threshold, the master performs exactly one round:
the trace shows the decision, then — ordered by `send_before_apply` —
the parent propagation and one fan-out of the refreshed time step and the
weights current at fan-out time to every waiting child, the weights end up
with the pending update applied at the position the flag dictates, and the
waiting list is emptied and the pending update buffer reset to zero arrays
of `weights_shapes`. -/
theorem claim_C2 (m : MPIMaster) (source : Nat) (t : Int) (u : Weights)
    (env : ParentEnv) (vb : List (List ℚ)) (m' : MPIMaster) (tr : List Msg)
    (h : do_update_sequence m source t u env vb = .ok (m', tr))
    (hacc : update_decision m t = true)
    (hthr : m.num_sync_workers ≤ (m.waiting_workers_list.length : Int) + 1) :
    m'.waiting_workers_list = [] ∧
    m'.update = weights_from_shapes m.weights_shapes ∧
    m'.time_step = (if m.has_parent then env.newTime else m.time_step + 1) ∧
    m'.weights = (if m.algo.send_before_apply then
        m.algo.applyUpdate (if m.has_parent then env.newWeights else m.weights)
          (pendingOf m u)
      else (if m.has_parent then env.newWeights
        else m.algo.applyUpdate m.weights (pendingOf m u))) ∧
    tr = Msg.boolToChild source true ::
      ((if m.has_parent then
          [Msg.beginUpdateToParent, Msg.timeToParent m.time_step] ++
            (if env.decision then [Msg.updateToParent (pendingOf m u)] else [])
        else []) ++
        ((m.waiting_workers_list ++ [source]).reverse.map (fun c =>
          [Msg.timeToChild c
             (if m.has_parent then env.newTime else m.time_step + 1),
           Msg.weightsToChild c (if m.has_parent then env.newWeights
             else if m.algo.send_before_apply then m.weights
             else m.algo.applyUpdate m.weights (pendingOf m u))])).flatten) := by
  simp only [do_update_sequence] at h
  rw [if_pos (show accept_update (set_staleness m t) = true from hacc),
    if_pos (decide_sync_append hthr)] at h
  obtain ⟨htr, hfr⟩ := validate_phase_frame h
  subst htr
  obtain ⟨hfp, hft, hfn, hfrw, hfwl, hfsh, hfwe, hfup, hfmc, hfal⟩ := hfr
  refine ⟨?_, ?_, ?_, ?_, ?_⟩
  · rw [hfwl, round_step_waiting]
  · rw [hfup, round_step_update]
    rfl
  · rw [hft, round_step_time]
    rfl
  · rw [hfwe, round_step_weights]
    rfl
  · rw [round_step_trace]
    rfl

/-- The state `masterA` reaches after its round on the accepted update
`[[1]]` from child 1. -/
def masterA2 : MPIMaster :=
  { masterA with
    time_step := 1,
    weights := [[]],
    update := [[]],
    waiting_workers_list := [] }

/-- The trace `masterA` emits during that round. -/
def traceA2 : List Msg :=
  [Msg.boolToChild 1 true, Msg.timeToChild 1 1, Msg.weightsToChild 1 [[]]]

/-- Claim C2 witness: the asynchronous root master (threshold 1) completes a
round on the single accepted update. -/
theorem claim_C2_witness :
    ∃ m' tr, do_update_sequence masterA 1 0 [[1]] envA [] = .ok (m', tr) ∧
      m'.waiting_workers_list = [] ∧
      m'.update = weights_from_shapes masterA.weights_shapes ∧
      m'.time_step =
        (if masterA.has_parent then envA.newTime else masterA.time_step + 1) := by
  obtain ⟨h1, h2, h3, -, -⟩ :=
    claim_C2 masterA 1 0 [[]] envA [] masterA2 traceA2 (by rfl) (by decide)
      (by decide)
  exact ⟨masterA2, traceA2, by rfl, h1, h2, h3⟩

/-- Claim C10 counterexample: the claim says the entry point computes
`validate_every` by integer division `count_data()/batch`, equal to 0
whenever the dataset holds fewer samples than one batch; but
`OptimizeCNN.py` is a Python 3 script, so `/` is true division: with 50
samples and batch 100 the computed value is 1/2, not 0. -/
theorem claim_C10_cex :
    validate_every_main 50 100 = 1/2 ∧
    validate_every_main 50 100 ≠ 0 ∧ 50 < 100 := by
  refine ⟨?_, ?_, by norm_num⟩ <;> norm_num [validate_every_main]

/-- Claim C10 (amended): `do_update_sequence` evaluates
`time_step % algo.validate_every` after every accepted update, so it is
total only under the precondition `validate_every ≠ 0`: with
`validate_every = 0` every accepted update fails with a division-by-zero
error.  The entry point's `validate_every = count_data()/batch` is Python 3
true division, so it equals 0 exactly when the dataset is empty
(`count_data() == 0`), not merely smaller than one batch. -/
theorem claim_C10_amended :
    (∀ (m : MPIMaster) (source : Nat) (t : Int) (u : Weights)
        (env : ParentEnv) (vb : List (List ℚ)),
      m.algo.validate_every = 0 → update_decision m t = true →
      do_update_sequence m source t u env vb = .error .zeroDivision) ∧
    (∀ count batchSize : Nat, 0 < batchSize →
      (validate_every_main count batchSize = 0 ↔ count = 0)) := by
  constructor
  · intro m source t u env vb hve hacc
    simp only [do_update_sequence]
    rw [if_pos (show accept_update (set_staleness m t) = true from hacc)]
    unfold validate_phase
    rw [if_pos ?hz]
    case hz =>
      split
      · rw [(round_step_frame _ env).1]
        exact hve
      · exact hve
  · intro count batchSize hb
    unfold validate_every_main
    rw [div_eq_zero_iff]
    constructor
    · intro hc
      rcases hc with hc | hc
      · exact_mod_cast hc
      · exact absurd hc (by positivity)
    · intro hc
      exact Or.inl (by exact_mod_cast hc)

/-- Claim C10 amended witness: a master with `validate_every = 0` fails on
an accepted update, and the entry-point expression vanishes only on an
empty dataset. -/
theorem claim_C10_amended_witness :
    do_update_sequence
        { masterA with algo := { algoA with validate_every := 0 } }
        1 0 [[1]] envA [] = .error .zeroDivision ∧
    (validate_every_main 0 100 = 0 ↔ (0 : Nat) = 0) :=
  ⟨claim_C10_amended.1 _ 1 0 [[1]] envA [] rfl (by decide),
   claim_C10_amended.2 0 100 (by norm_num)⟩

/-- Claim C8: `validate` on a master with a parent returns immediately,
leaving the state (in particular `best_val_loss`) untouched and saving
nothing; and the periodic validation inside `do_update_sequence` runs only
when the (post-round) `time_step` is positive and an exact multiple of
`validate_every` — otherwise `best_val_loss` is unchanged. -/
theorem claim_C8 :
    (∀ (m : MPIMaster) (batches : List (List ℚ)) (s : Bool),
      m.has_parent = true → validate m batches s = .ok (m, false)) ∧
    (∀ (m : MPIMaster) (source : Nat) (t : Int) (u : Weights)
        (env : ParentEnv) (vb : List (List ℚ)) (m' : MPIMaster)
        (tr : List Msg),
      do_update_sequence m source t u env vb = .ok (m', tr) →
      ¬(Int.fmod m'.time_step (m'.algo.validate_every : Int) = 0 ∧
          0 < m'.time_step) →
      m'.best_val_loss = m.best_val_loss) := by
  constructor
  · intro m batches s h
    simp [validate, h]
  · intro m source t u env vb m' tr h hnv
    simp only [do_update_sequence] at h
    split at h
    · next hacc =>
      have hbest : (if decide_whether_to_sync
            (merge_update (set_staleness m t) source u) = true
          then round_step (merge_update (set_staleness m t) source u) env
          else (merge_update (set_staleness m t) source u, [])).1.best_val_loss
            = m.best_val_loss := by
        split
        · exact (round_step_frame _ env).2.1
        · rfl
      generalize hX : (if decide_whether_to_sync
          (merge_update (set_staleness m t) source u) = true
        then round_step (merge_update (set_staleness m t) source u) env
        else (merge_update (set_staleness m t) source u, [])) = X
        at h hbest
      unfold validate_phase at h
      split at h
      · exact absurd h (by simp)
      · split at h
        · next hcond =>
          split at h
          · exact absurd h (by simp)
          · next p heq =>
            simp only [Except.ok.injEq, Prod.mk.injEq] at h
            obtain ⟨h1, -⟩ := h
            subst h1
            obtain ⟨-, hvt, -, -, -, -, -, -, -, hva⟩ := validate_frame heq
            rw [hvt, hva] at hnv
            exact absurd hcond hnv
        · simp only [Except.ok.injEq, Prod.mk.injEq] at h
          obtain ⟨h1, -⟩ := h
          subst h1
          exact hbest
    · next hacc =>
      simp only [Except.ok.injEq, Prod.mk.injEq] at h
      obtain ⟨h1, -⟩ := h
      subst h1
      rfl

/-- Claim C8 witness: a master with a parent skips validation, and
`masterA`'s round (ending at time step 1, `validate_every` 5) leaves
`best_val_loss` unchanged. -/
theorem claim_C8_witness :
    validate { masterA with has_parent := true } [[1]] true =
      .ok ({ masterA with has_parent := true }, false) ∧
    masterA2.best_val_loss = masterA.best_val_loss :=
  ⟨claim_C8.1 _ [[1]] true rfl,
   claim_C8.2 masterA 1 0 [[]] envA [] masterA2 traceA2 (by rfl) (by decide)⟩

lemma do_update_sequence_running {m : MPIMaster} {source : Nat} {t : Int}
    {u : Weights} {env : ParentEnv} {vb : List (List ℚ)} {m' : MPIMaster}
    {tr : List Msg}
    (h : do_update_sequence m source t u env vb = .ok (m', tr)) :
    m'.running_workers = m.running_workers := by
  simp only [do_update_sequence] at h
  split at h
  · next hacc =>
    obtain ⟨-, -, -, -, hrw, -⟩ := validate_phase_frame h
    rw [hrw]
    split
    · exact (round_step_frame _ env).2.2.2.2.1
    · rfl
  · next hacc =>
    simp only [Except.ok.injEq, Prod.mk.injEq] at h
    obtain ⟨h1, -⟩ := h
    subst h1
    rfl

lemma process_message_running {m : MPIMaster} {e : InEvent} {m' : MPIMaster}
    {tr : List Msg} (h : process_message m e = .ok (m', tr)) :
    m'.running_workers = m.running_workers ∨
    m'.running_workers = m.running_workers - 1 := by
  unfold process_message at h
  split at h
  · exact Or.inl (do_update_sequence_running h)
  · simp only [Except.ok.injEq, Prod.mk.injEq] at h
    obtain ⟨h1, -⟩ := h
    subst h1
    exact Or.inr rfl
  · exact absurd h (by simp)

/-- Claim C5: the master's dispatch handles exactly two message types — a
`begin_update` tag runs the update sequence, an `exit` tag decrements
`running_workers` and `num_sync_workers` each by exactly one, and any other
tag raises a fatal error — and the serving loop stops consuming messages
exactly when `running_workers` reaches zero. -/
theorem claim_C5 :
    (∀ (m : MPIMaster) (e : InEvent),
      inv_tag_lookup e.tagNum = some "begin_update" →
      process_message m e =
        do_update_sequence m e.source e.childTime e.childUpdate e.env
          e.valBatches) ∧
    (∀ (m : MPIMaster) (e : InEvent),
      inv_tag_lookup e.tagNum = some "exit" →
      process_message m e =
        .ok ({ m with running_workers := m.running_workers - 1,
                      num_sync_workers := m.num_sync_workers - 1 }, [])) ∧
    (∀ (m : MPIMaster) (e : InEvent),
      inv_tag_lookup e.tagNum ≠ some "begin_update" →
      inv_tag_lookup e.tagNum ≠ some "exit" →
      process_message m e = .error .valueError) ∧
    (∀ (m : MPIMaster) (evts : List InEvent),
      ¬0 < m.running_workers → serve m evts = .ok (m, evts)) ∧
    (∀ (m : MPIMaster) (evts : List InEvent) (m' : MPIMaster)
        (rest : List InEvent),
      0 ≤ m.running_workers → serve m evts = .ok (m', rest) → rest ≠ [] →
      m'.running_workers = 0) := by
  refine ⟨?_, ?_, ?_, ?_, ?_⟩
  · intro m e h
    unfold process_message
    rw [h]
    rfl
  · intro m e h
    unfold process_message
    rw [h]
    rfl
  · intro m e h1 h2
    unfold process_message
    split
    · next heq => exact absurd heq h1
    · next heq => exact absurd heq h2
    · rfl
  · intro m evts h
    cases evts with
    | nil => rfl
    | cons e es =>
      unfold serve
      rw [if_neg h]
  · intro m evts
    induction evts generalizing m with
    | nil =>
      intro m' rest h0 hs hne
      simp only [serve, Except.ok.injEq, Prod.mk.injEq] at hs
      obtain ⟨-, h2⟩ := hs
      exact absurd h2.symm hne
    | cons e es ih =>
      intro m' rest h0 hs hne
      unfold serve at hs
      by_cases hr : 0 < m.running_workers
      · rw [if_pos hr] at hs
        cases hp : process_message m e with
        | error err =>
          rw [hp] at hs
          exact absurd hs (by simp)
        | ok p =>
          rw [hp] at hs
          refine ih p.1 m' rest ?_ hs hne
          rcases process_message_running hp with hq | hq <;> omega
      · rw [if_neg hr] at hs
        simp only [Except.ok.injEq, Prod.mk.injEq] at hs
        obtain ⟨h1, -⟩ := hs
        subst h1
        omega

/-- A concrete `exit` event (wire tag 1). -/
def evExit : InEvent :=
  { tagNum := 1, source := 1, childTime := 0, childUpdate := [[]],
    env := envA, valBatches := [] }

/-- Claim C5 witness: an `exit` event decrements both counters by one, and
a master whose `running_workers` is already 0 consumes no further
messages. -/
theorem claim_C5_witness :
    process_message masterA evExit =
      .ok ({ masterA with
              running_workers := masterA.running_workers - 1,
              num_sync_workers := masterA.num_sync_workers - 1 }, []) ∧
    serve { masterA with running_workers := 0 } [evExit] =
      .ok ({ masterA with running_workers := 0 }, [evExit]) :=
  ⟨claim_C5.2.1 masterA evExit rfl,
   claim_C5.2.2.2.1 { masterA with running_workers := 0 } [evExit]
     (by decide)⟩

/-! ## A master/worker tree node as a transition system (for claim C6) -/

lemma do_update_sequence_staleness {m : MPIMaster} {source : Nat} {t : Int}
    {u : Weights} {env : ParentEnv} {vb : List (List ℚ)} {m' : MPIMaster}
    {tr : List Msg}
    (h : do_update_sequence m source t u env vb = .ok (m', tr)) :
    m'.algo.staleness = m.time_step - t := by
  simp only [do_update_sequence] at h
  split at h
  · next hacc =>
    obtain ⟨-, -, -, -, -, -, -, -, -, -, hva⟩ := validate_phase_frame h
    rw [hva]
    split
    · rw [(round_step_frame _ env).1]
      rfl
    · rfl
  · next hacc =>
    simp only [Except.ok.injEq, Prod.mk.injEq] at h
    obtain ⟨h1, -⟩ := h
    subst h1
    rfl

lemma round_step_trace_times (m : MPIMaster) (env : ParentEnv) (c : Nat)
    (tt : Int) (hmem : Msg.timeToChild c tt ∈ (round_step m env).2) :
    tt = (round_step m env).1.time_step := by
  rw [round_step_trace] at hmem
  rw [round_step_time]
  rcases List.mem_append.mp hmem with hl | hr
  · by_cases hp : m.has_parent = true
    · rw [if_pos hp] at hl
      split at hl <;> simp at hl
    · rw [if_neg hp] at hl
      simp at hl
  · obtain ⟨l, hl, hml⟩ := List.mem_flatten.mp hr
    obtain ⟨c', -, rfl⟩ := List.mem_map.mp hl
    simp only [List.mem_cons, List.not_mem_nil, or_false] at hml
    rcases hml with h1 | h1
    · simp only [Msg.timeToChild.injEq] at h1
      exact h1.2
    · exact absurd h1 (by simp)

lemma do_update_sequence_time {m : MPIMaster} {source : Nat} {t : Int}
    {u : Weights} {env : ParentEnv} {vb : List (List ℚ)} {m' : MPIMaster}
    {tr : List Msg}
    (h : do_update_sequence m source t u env vb = .ok (m', tr))
    (henv : m.has_parent = true → m.time_step ≤ env.newTime) :
    m.time_step ≤ m'.time_step ∧
    (∀ c tt, Msg.timeToChild c tt ∈ tr → tt = m'.time_step) := by
  simp only [do_update_sequence] at h
  split at h
  · next hacc =>
    by_cases hsync : decide_whether_to_sync
        (merge_update (set_staleness m t) source u) = true
    · rw [if_pos hsync] at h
      obtain ⟨htr, -, hft, -⟩ := validate_phase_frame h
      subst htr
      constructor
      · rw [hft, round_step_time]
        by_cases hp : m.has_parent = true
        · rw [if_pos (show (merge_update (set_staleness m t) source
              u).has_parent = true from hp)]
          exact henv hp
        · rw [if_neg (show ¬(merge_update (set_staleness m t) source
              u).has_parent = true from hp)]
          have he : (merge_update (set_staleness m t) source u).time_step =
              m.time_step := rfl
          rw [he]
          omega
      · intro c tt hmem
        rcases List.mem_cons.mp hmem with heq | hmem'
        · exact absurd heq (by simp)
        · rw [hft]
          exact round_step_trace_times _ env c tt hmem'
    · rw [if_neg hsync] at h
      obtain ⟨htr, -, hft, -⟩ := validate_phase_frame h
      subst htr
      constructor
      · rw [hft]
        exact le_of_eq rfl
      · intro c tt hmem
        rcases List.mem_cons.mp hmem with heq | hmem'
        · exact absurd heq (by simp)
        · exact absurd hmem' (by simp)
  · next hacc =>
    simp only [Except.ok.injEq, Prod.mk.injEq] at h
    obtain ⟨h1, h2⟩ := h
    subst h1
    subst h2
    constructor
    · exact le_of_eq rfl
    · intro c tt hmem
      rcases List.mem_cons.mp hmem with heq | hmem'
      · exact absurd heq (by simp)
      · rcases List.mem_cons.mp hmem' with heq | hmem''
        · simp only [Msg.timeToChild.injEq] at heq
          exact heq.2
        · exact absurd hmem'' (by simp)

lemma process_message_time {m : MPIMaster} {e : InEvent} {m' : MPIMaster}
    {tr : List Msg} (h : process_message m e = .ok (m', tr))
    (henv : m.has_parent = true → m.time_step ≤ e.env.newTime) :
    m.time_step ≤ m'.time_step ∧
    (∀ c tt, Msg.timeToChild c tt ∈ tr → tt = m'.time_step) := by
  unfold process_message at h
  split at h
  · exact do_update_sequence_time h henv
  · simp only [Except.ok.injEq, Prod.mk.injEq] at h
    obtain ⟨h1, h2⟩ := h
    subst h1
    subst h2
    exact ⟨le_refl _, by simp⟩
  · exact absurd h (by simp)

/-- The state of one master node together with the logical time step each
of its children currently holds (the last value it received from this
master; 0 from the initial broadcast). -/
structure SysState where
  master : MPIMaster
  workerTime : Nat → Int

/-- Replay the time-step messages of a trace onto the children: each
`timeToChild c t` is the value child `c` adopts in its
`sync_with_master`. -/
def applyTrace (wt : Nat → Int) : List Msg → (Nat → Int)
  | [] => wt
  | Msg.timeToChild c t :: rest =>
      applyTrace (fun x => if x = c then t else wt x) rest
  | _ :: rest => applyTrace wt rest

/-- One serving-loop step of the master under correct sequencing: the
child's declared time step is the one it last received from this master,
and a parent (whose own time step is at least every value it ever served,
including this master's current one) serves back a time step no smaller
than the master's. -/
inductive SysStep : SysState → SysState → Prop
  | step (s : SysState) (e : InEvent) (m' : MPIMaster) (tr : List Msg)
      (henv : s.master.has_parent = true →
        s.master.time_step ≤ e.env.newTime)
      (htime : e.childTime = s.workerTime e.source)
      (hrun : process_message s.master e = .ok (m', tr)) :
      SysStep s ⟨m', applyTrace s.workerTime tr⟩

/-- Every child's held time step is at most the master's current one. -/
def SysInv (s : SysState) : Prop :=
  ∀ c, s.workerTime c ≤ s.master.time_step

lemma applyTrace_le {T : Int} :
    ∀ (tr : List Msg) (wt : Nat → Int),
      (∀ c tt, Msg.timeToChild c tt ∈ tr → tt = T) →
      (∀ c, wt c ≤ T) → ∀ c, applyTrace wt tr c ≤ T := by
  intro tr
  induction tr with
  | nil =>
    intro wt htr hwt c
    exact hwt c
  | cons msg rest ih =>
    intro wt htr hwt c
    cases msg with
    | timeToChild c0 t0 =>
      refine ih _ (fun c' tt hm => htr c' tt (List.mem_cons_of_mem _ hm)) ?_ c
      intro c'
      by_cases hc : c' = c0
      · have ht0 : t0 = T := htr c0 t0 (List.mem_cons_self _ _)
        simp [hc, ht0]
      · simp only [hc, if_false]
        exact hwt c'
    | boolToChild d b =>
      exact ih wt (fun c' tt hm => htr c' tt (List.mem_cons_of_mem _ hm)) hwt c
    | weightsToChild d w =>
      exact ih wt (fun c' tt hm => htr c' tt (List.mem_cons_of_mem _ hm)) hwt c
    | beginUpdateToParent =>
      exact ih wt (fun c' tt hm => htr c' tt (List.mem_cons_of_mem _ hm)) hwt c
    | timeToParent t =>
      exact ih wt (fun c' tt hm => htr c' tt (List.mem_cons_of_mem _ hm)) hwt c
    | updateToParent u =>
      exact ih wt (fun c' tt hm => htr c' tt (List.mem_cons_of_mem _ hm)) hwt c

lemma sysStep_inv {s s' : SysState} (hstep : SysStep s s') (hinv : SysInv s) :
    SysInv s' := by
  cases hstep with
  | step e m' tr henv htime hrun =>
    obtain ⟨hmono, htr⟩ := process_message_time hrun henv
    intro c
    exact applyTrace_le tr s.workerTime htr
      (fun c' => le_trans (hinv c') hmono) c

/-- Claim C6: under correct sequencing — each child declares the time step
it last received from this master, and a parent serves only fresh time
steps — every reachable state keeps every child's time step at most the
master's, so the staleness the master computes on any update request
(stored in `algo.staleness` by `do_update_sequence`) is never negative. -/
theorem claim_C6 (s0 s : SysState) (h0 : SysInv s0)
    (hreach : Relation.ReflTransGen SysStep s0 s) (c : Nat) :
    0 ≤ s.master.time_step - s.workerTime c ∧
    (∀ (e : InEvent) (m' : MPIMaster) (tr : List Msg),
      e.childTime = s.workerTime e.source →
      do_update_sequence s.master e.source e.childTime e.childUpdate e.env
        e.valBatches = .ok (m', tr) →
      0 ≤ m'.algo.staleness) := by
  have hinv : SysInv s := by
    induction hreach with
    | refl => exact h0
    | tail hab hbc ih => exact sysStep_inv hbc ih
  constructor
  · have := hinv c
    omega
  · intro e m' tr ht h
    rw [do_update_sequence_staleness h, ht]
    have := hinv e.source
    omega

/-- A concrete initial tree node: `masterA` with every child at time 0. -/
def sysA : SysState :=
  { master := masterA, workerTime := fun _ => 0 }

/-- Claim C6 witness: the initial node satisfies the invariant, so its
computed staleness is non-negative. -/
theorem claim_C6_witness :
    0 ≤ sysA.master.time_step - sysA.workerTime 0 ∧
    (∀ (e : InEvent) (m' : MPIMaster) (tr : List Msg),
      e.childTime = sysA.workerTime e.source →
      do_update_sequence sysA.master e.source e.childTime e.childUpdate e.env
        e.valBatches = .ok (m', tr) →
      0 ≤ m'.algo.staleness) :=
  claim_C6 sysA sysA (fun _ => le_refl 0) Relation.ReflTransGen.refl 0

end NNLO
